import Mathlib

/-!
# Verification of the JoBird chat-assistant search and citation pipeline

Shallow embedding of the server logic in `src/geminiService.ts` (the express
server half of the file).  Strings are modelled as `List Char`, similarity
scores as `ℚ`, database/AI calls as explicit input parameters (an
`Except`/`Option` value records whether the external call succeeded, timed
out, or errored — the code recovers every such failure locally).

The embedded functions keep the names of the source functions where Lean
allows it: `searchProducts`, `expandQuery`, `decomposeEnquiry`,
`extractDatasheetReferences`, `filterDatasheetsByCitations`.
-/

namespace JoBird

/-! ## Hybrid search engine (`searchProducts`, geminiService.ts lines 266-382)

A database row as selected by the keyword / fuzzy queries
(`select('id, product_code, name, …')`).  Only `id` influences the
merge / dedup / sort logic; the payload columns are carried through the
spread `{ ...r, similarity, type }` unchanged and are elided here. -/
structure DBRow where
  id : Nat
deriving DecidableEq, Repr

/-- A row returned by the `match_products` vector RPC: a record plus the
similarity score computed by the external store (unconstrained here; the
store's interface only promises "a similarity score"). -/
structure VRow where
  id : Nat
  similarity : Rat
deriving DecidableEq, Repr

/-- The `type` tag attached by each strategy (`'keyword' | 'fuzzy' | 'vector'`). -/
inductive MatchType where
  | keyword
  | fuzzy
  | vector
deriving DecidableEq, Repr

/-- A merged search result: `{ ...row, similarity, type }`. -/
structure SR where
  id : Nat
  similarity : Rat
  rtype : MatchType
deriving DecidableEq, Repr

/-- Source `.catch(err => … return [])`: any strategy failure (timeout, DB error,
embedding error) degrades that strategy to the empty batch. -/
def recover (o : Except (List Char) (List α)) : List α :=
  match o with
  | .ok l => l
  | .error _ => []

/-- Keyword strategy tagging: `{ ...r, similarity: 2.0, type: 'keyword' }`. -/
def tagKeyword (r : DBRow) : SR := ⟨r.id, 2, .keyword⟩

/-- Fuzzy strategy tagging: `{ ...r, similarity: 1.5, type: 'fuzzy' }`. -/
def tagFuzzy (r : DBRow) : SR := ⟨r.id, 3/2, .fuzzy⟩

/-- Vector strategy tagging: `{ ...r, type: 'vector' }` (similarity comes
from the store). -/
def tagVector (r : VRow) : SR := ⟨r.id, r.similarity, .vector⟩

/-- Source `const existing = results.find(r => r.id === product.id);
if (existing && product.similarity > existing.similarity) {
  existing.similarity = product.similarity; existing.type = product.type; }` —
update the first (and, by the dedup invariant, only) entry whose id matches. -/
def updateFirst : List SR → SR → List SR
  | [], _ => []
  | x :: xs, p =>
    if x.id = p.id then
      (if p.similarity > x.similarity then
        { x with similarity := p.similarity, rtype := p.rtype }
      else x) :: xs
    else x :: updateFirst xs p

/-- One iteration of the merge loop.  `existingIds` in the source is a `Set`
mirroring exactly the ids present in `results`; we test membership on the
accumulator directly. -/
def mergeStep (acc : List SR) (p : SR) : List SR :=
  if acc.any (fun r => r.id = p.id) then updateFirst acc p else acc ++ [p]

/-- Source `for (const batch of allResults) for (const product of batch) …`. -/
def mergeBatches (batches : List (List SR)) : List SR :=
  batches.flatten.foldl mergeStep []

/-- Insertion step of the descending sort
(`results.sort((a, b) => (b.similarity || 0) - (a.similarity || 0))`;
every merged entry carries a similarity, so the `|| 0` default is inert).
The `≥` test keeps the sort stable (ties stay in original order), matching
the stable JS `Array.prototype.sort`. -/
def insertDesc (p : SR) : List SR → List SR
  | [] => [p]
  | x :: xs => if p.similarity ≥ x.similarity then p :: x :: xs else x :: insertDesc p xs

/-- Stable insertion sort, descending by similarity. -/
def sortDesc : List SR → List SR
  | [] => []
  | x :: xs => insertDesc x (sortDesc xs)

/-- The batches delivered by `await Promise.all(searchPromises)`, in push
order: one keyword batch per product-code found in the query, then the
fuzzy batch (only when fuzzy terms exist), then the vector batch. -/
def strategyBatches (keywordOutcomes : List (Except (List Char) (List DBRow)))
    (fuzzyOutcome : Option (Except (List Char) (List DBRow)))
    (vectorOutcome : Except (List Char) (List VRow)) : List (List SR) :=
  keywordOutcomes.map (fun o => (recover o).map tagKeyword) ++
    (match fuzzyOutcome with
      | some o => [(recover o).map tagFuzzy]
      | none => []) ++
    [(recover vectorOutcome).map tagVector]

/-- Source `searchProducts(question, matchCount)`, parametrised by the outcomes of
the external calls launched for this query.  Each outcome is
`Except`-tagged; failures are recovered to `[]`.  Merge, sort descending,
truncate to `matchCount`. -/
def searchProducts (keywordOutcomes : List (Except (List Char) (List DBRow)))
    (fuzzyOutcome : Option (Except (List Char) (List DBRow)))
    (vectorOutcome : Except (List Char) (List VRow))
    (matchCount : Nat) : List SR :=
  (sortDesc (mergeBatches (strategyBatches keywordOutcomes fuzzyOutcome vectorOutcome))).take
    matchCount

/-! ## Character and string primitives

ASCII semantics of the JS string / regex operations used by the server.
All queries, product codes and generated text handled by these code paths
are ASCII, and none of the regexes use the `u` flag, so the ASCII reading
of `[A-Z]` + `i`-flag, `\d`, `\w`, `\b`, `\s` and `toLowerCase()` is
faithful. -/

def isUpperCh (c : Char) : Bool := 65 ≤ c.toNat && c.toNat ≤ 90

def isLowerCh (c : Char) : Bool := 97 ≤ c.toNat && c.toNat ≤ 122

/-- Class `[A-Z]` under the `i` flag: any ASCII letter. -/
def isLetterCh (c : Char) : Bool := isUpperCh c || isLowerCh c

/-- Class `\d`. -/
def isDigitCh (c : Char) : Bool := 48 ≤ c.toNat && c.toNat ≤ 57

/-- The class `[\d.]`. -/
def isDotDigitCh (c : Char) : Bool := isDigitCh c || c = '.'

/-- The class `[A-Za-z\d]`. -/
def isAlnumCh (c : Char) : Bool := isLetterCh c || isDigitCh c

/-- Class `\w` (regex word character). -/
def isWordCh (c : Char) : Bool := isLetterCh c || isDigitCh c || c = '_'

/-- Class `\s` restricted to the ASCII whitespace characters. -/
def isSpaceCh (c : Char) : Bool :=
  c = ' ' || c = '\t' || c = '\n' || c = '\r' || c = Char.ofNat 11 || c = Char.ofNat 12

/-- JS `toLowerCase()` on ASCII. -/
def toLowerCh (c : Char) : Char := if isUpperCh c then Char.ofNat (c.toNat + 32) else c

/-- JS `s.toLowerCase()`. -/
def lowerStr (s : List Char) : List Char := s.map toLowerCh

/-- JS `s.includes(needle)`. -/
def containsSub (needle : List Char) : List Char → Bool
  | [] => needle.isEmpty
  | c :: rest => needle.isPrefixOf (c :: rest) || containsSub needle rest

/-- JS `s.trim()` (ASCII whitespace). -/
def trimStr (s : List Char) : List Char :=
  ((s.dropWhile isSpaceCh).reverse.dropWhile isSpaceCh).reverse

/-- Source `.replace(/^"|"$/g, '')`: drop one leading and one trailing quote. -/
def stripOuterQuotes (s : List Char) : List Char :=
  let s1 := match s with
    | '"' :: rest => rest
    | _ => s
  match s1.reverse with
  | '"' :: rest => rest.reverse
  | _ => s1

/-- JS `s.split('\n')`. -/
def splitOnNl : List Char → List (List Char)
  | [] => [[]]
  | c :: rest =>
    if c = '\n' then [] :: splitOnNl rest
    else
      match splitOnNl rest with
      | [] => [[c]]
      | l :: ls => (c :: l) :: ls

/-! ## Query preprocessor (`expandQuery` / `decomposeEnquiry`,
geminiService.ts lines 385-487) -/

/-- Existence of a match of `/[A-Z]{2,3}[\d.]+[A-Z]*/i` starting at the
head of `cs`: two letters then a `[\d.]` character, or three letters then
a `[\d.]` character.  (`{2,3}` may take exactly two letters and the
trailing `[A-Z]*` may be empty, so a match exists exactly when some
position offers 2-or-3 letters followed by at least one digit-or-dot.) -/
def codePatternAt (cs : List Char) : Bool :=
  match cs with
  | a :: b :: rest =>
    isLetterCh a && isLetterCh b &&
      (match rest with
        | c :: rest2 =>
          isDotDigitCh c ||
            (isLetterCh c &&
              (match rest2 with
                | d :: _ => isDotDigitCh d
                | [] => false))
        | [] => false)
  | _ => false

/-- Test `query.match(/[A-Z]{2,3}[\d.]+[A-Z]*/i)` is non-null: the pattern
matches somewhere in the string. -/
def containsCodePattern : List Char → Bool
  | [] => false
  | c :: rest => codePatternAt (c :: rest) || containsCodePattern rest

/-- One conversation turn as supplied by the client (`{role, content}`). -/
structure Msg where
  role : List Char
  content : List Char
deriving DecidableEq, Repr

/-- Source `expandQuery(query, history)`.  `aiResult` is the outcome of the
`generateContent` call (`none` models an unconfigured client, a timeout,
or any thrown error — every such case falls back to the original query);
`some t` models the returned text, which the code trims and strips of
outer quotes.  The history only seeds the model prompt, so it cannot
influence the result in this embedding. -/
def expandQuery (aiResult : Option (List Char)) (query : List Char)
    (_history : List Msg) : List Char :=
  let lowerQ := lowerStr query
  let isMetaQuery := containsSub "category".data lowerQ || containsSub "list of".data lowerQ ||
    containsSub "what classes".data lowerQ || containsSub "what sections".data lowerQ
  if containsCodePattern query || query.contains '_' || query.contains '-' || isMetaQuery then
    query
  else if query.length > 4 || query.contains ' ' then
    match aiResult with
    | none => query
    | some t => stripOuterQuotes (trimStr t)
  else query

/-- Source `decomposeEnquiry(query)`.  `aiResult` as in `expandQuery`. -/
def decomposeEnquiry (aiResult : Option (List Char)) (query : List Char) :
    List (List Char) :=
  if query.length < 150 then [query]
  else
    match aiResult with
    | none => [query]
    | some t =>
      let phrases := ((splitOnNl t).map trimStr).filter (fun p => 5 < p.length)
      if 0 < phrases.length then phrases else [query]

/-- **C5: expansion no-op guarantee.**  A query that contains a
product-code pattern, or an underscore or hyphen, or one of the
meta-question markers, is returned by `expandQuery` unchanged,
byte-for-byte, whatever the completion model would have answered (so the
result never depends on the model call). -/
theorem C5_expandQuery_noop (query : List Char)
    (h : containsCodePattern query = true ∨ query.contains '_' = true ∨
      query.contains '-' = true ∨
      containsSub "category".data (lowerStr query) = true ∨
      containsSub "list of".data (lowerStr query) = true ∨
      containsSub "what classes".data (lowerStr query) = true) :
    ∀ aiResult history, expandQuery aiResult query history = query := by
  intro aiResult history
  unfold expandQuery
  have hgate : (containsCodePattern query || query.contains '_' || query.contains '-' ||
      (containsSub "category".data (lowerStr query) ||
        containsSub "list of".data (lowerStr query) ||
        containsSub "what classes".data (lowerStr query) ||
        containsSub "what sections".data (lowerStr query))) = true := by
    rcases h with h | h | h | h | h | h <;> simp at h ⊢ <;> simp [h]
  simp only [hgate, if_true]

/-- **C5, witness.**  `"JB02"` contains the code pattern and is returned
unchanged even though a (mock) expansion answer is available. -/
theorem C5_witness :
    (containsCodePattern "JB02".data = true ∨ "JB02".data.contains '_' = true ∨
      "JB02".data.contains '-' = true ∨
      containsSub "category".data (lowerStr "JB02".data) = true ∨
      containsSub "list of".data (lowerStr "JB02".data) = true ∨
      containsSub "what classes".data (lowerStr "JB02".data) = true) ∧
    expandQuery (some "expanded text".data) "JB02".data [] = "JB02".data :=
  ⟨Or.inl (by decide), C5_expandQuery_noop "JB02".data (Or.inl (by decide))
    (some "expanded text".data) []⟩

/-- **C6: decomposition length guard.**  A query shorter than 150
characters is returned by `decomposeEnquiry` as the single-element list
containing it, whatever the completion model would have answered. -/
theorem C6_decompose_short (query : List Char) (h : query.length < 150) :
    ∀ aiResult, decomposeEnquiry aiResult query = [query] := by
  intro aiResult
  unfold decomposeEnquiry
  rw [if_pos h]

/-- **C6, witness.** -/
theorem C6_witness :
    "what fire hose cabinets do you have".data.length < 150 ∧
    decomposeEnquiry (some "Phrase one\nPhrase two".data)
      "what fire hose cabinets do you have".data =
        ["what fire hose cabinets do you have".data] :=
  ⟨by decide, C6_decompose_short "what fire hose cabinets do you have".data (by decide)
    (some "Phrase one\nPhrase two".data)⟩

/-! ### Properties of the merge loop -/

theorem updateFirst_map_id (l : List SR) (p : SR) :
    (updateFirst l p).map SR.id = l.map SR.id := by
  induction l with
  | nil => rfl
  | cons x xs ih =>
    unfold updateFirst
    by_cases h : x.id = p.id
    · rw [if_pos h]
      split <;> simp
    · rw [if_neg h]
      simp [ih]

theorem mergeStep_map_id_mono (acc : List SR) (p : SR) {j : Nat}
    (hj : j ∈ acc.map SR.id) : j ∈ (mergeStep acc p).map SR.id := by
  unfold mergeStep
  split
  · rwa [updateFirst_map_id]
  · simp only [List.map_append, List.mem_append]
    exact Or.inl hj

theorem foldl_mergeStep_map_id_mono (rows : List SR) (acc : List SR) {j : Nat}
    (hj : j ∈ acc.map SR.id) : j ∈ (rows.foldl mergeStep acc).map SR.id := by
  induction rows generalizing acc with
  | nil => exact hj
  | cons r rs ih => exact ih _ (mergeStep_map_id_mono _ _ hj)

theorem mem_map_id_foldl_of_mem_rows {rows : List SR} {r : SR} (hr : r ∈ rows)
    (acc : List SR) : r.id ∈ (rows.foldl mergeStep acc).map SR.id := by
  induction rows generalizing acc with
  | nil => cases hr
  | cons x xs ih =>
    rcases List.mem_cons.mp hr with h | h
    · subst h
      rw [List.foldl_cons]
      apply foldl_mergeStep_map_id_mono
      unfold mergeStep
      split
      · rename_i hany
        rw [updateFirst_map_id]
        rcases List.any_eq_true.mp hany with ⟨y, hy, hyid⟩
        simp only [decide_eq_true_eq] at hyid
        exact hyid ▸ List.mem_map_of_mem SR.id hy
      · simp
    · exact ih h _

/-- Predicate `Q e`: the entry carries the keyword strategy's fixed tag. -/
def isKeywordTag (e : SR) : Prop := e.similarity = 2 ∧ e.rtype = .keyword

theorem updateFirst_all_keywordTag {l : List SR} {p : SR}
    (hl : ∀ e ∈ l, isKeywordTag e) (hp : isKeywordTag p) :
    ∀ e ∈ updateFirst l p, isKeywordTag e := by
  induction l with
  | nil => intro e he; cases he
  | cons x xs ih =>
    intro e he
    unfold updateFirst at he
    by_cases h : x.id = p.id
    · rw [if_pos h] at he
      rcases List.mem_cons.mp he with h' | h'
      · subst h'
        split
        · exact ⟨hp.1, hp.2⟩
        · exact hl x (List.mem_cons_self _ _)
      · exact hl e (List.mem_cons_of_mem _ h')
    · rw [if_neg h] at he
      rcases List.mem_cons.mp he with h' | h'
      · exact h' ▸ hl x (List.mem_cons_self _ _)
      · exact ih (fun e he => hl e (List.mem_cons_of_mem _ he)) e h'

theorem foldl_mergeStep_all_keywordTag {rows : List SR}
    (hrows : ∀ r ∈ rows, isKeywordTag r) (acc : List SR)
    (hacc : ∀ e ∈ acc, isKeywordTag e) :
    ∀ e ∈ rows.foldl mergeStep acc, isKeywordTag e := by
  induction rows generalizing acc with
  | nil => exact hacc
  | cons r rs ih =>
    refine ih (fun x hx => hrows x (List.mem_cons_of_mem _ hx)) _ ?_
    have hr := hrows r (List.mem_cons_self _ _)
    intro e he
    unfold mergeStep at he
    split at he
    · exact updateFirst_all_keywordTag hacc hr e he
    · rcases List.mem_append.mp he with h | h
      · exact hacc e h
      · rcases List.mem_singleton.mp h with rfl
        exact hr

/-- Predicate `Pr i e`: if the entry is for product `i` it carries the keyword tag. -/
def keywordWins (i : Nat) (e : SR) : Prop :=
  e.id = i → e.similarity = 2 ∧ e.rtype = .keyword

theorem updateFirst_keywordWins {i : Nat} {l : List SR} {p : SR}
    (hl : ∀ e ∈ l, keywordWins i e) (hp : p.id = i → p.similarity ≤ 2) :
    ∀ e ∈ updateFirst l p, keywordWins i e := by
  induction l with
  | nil => intro e he; cases he
  | cons x xs ih =>
    intro e he
    unfold updateFirst at he
    by_cases h : x.id = p.id
    · rw [if_pos h] at he
      rcases List.mem_cons.mp he with h' | h'
      · subst h'
        split
        · rename_i hgt
          intro hid
          exfalso
          have hxid : x.id = i := hid
          have hx2 := (hl x (List.mem_cons_self _ _)) hxid
          have hple := hp (h ▸ hxid)
          rw [hx2.1] at hgt
          exact absurd hgt (not_lt.mpr hple)
        · exact hl x (List.mem_cons_self _ _)
      · exact hl e (List.mem_cons_of_mem _ h')
    · rw [if_neg h] at he
      rcases List.mem_cons.mp he with h' | h'
      · exact h' ▸ hl x (List.mem_cons_self _ _)
      · exact ih (fun e he => hl e (List.mem_cons_of_mem _ he)) e h'

theorem foldl_mergeStep_keywordWins {i : Nat} {rows : List SR}
    (hrows : ∀ r ∈ rows, r.id = i → r.similarity ≤ 2) {acc : List SR}
    (hacc : ∀ e ∈ acc, keywordWins i e) (hids : i ∈ acc.map SR.id) :
    ∀ e ∈ rows.foldl mergeStep acc, keywordWins i e := by
  induction rows generalizing acc with
  | nil => exact hacc
  | cons r rs ih =>
    refine ih (fun x hx => hrows x (List.mem_cons_of_mem _ hx))
      ?_ (mergeStep_map_id_mono _ _ hids)
    have hr := hrows r (List.mem_cons_self _ _)
    intro e he
    unfold mergeStep at he
    split at he
    · exact updateFirst_keywordWins hacc hr e he
    · rename_i hany
      rcases List.mem_append.mp he with h | h
      · exact hacc e h
      · rcases List.mem_singleton.mp h with rfl
        intro hei
        exfalso
        rcases List.mem_map.mp hids with ⟨y, hy, hyid⟩
        exact hany (List.any_eq_true.mpr ⟨y, hy, by simp [hyid, hei]⟩)

/-! ### Properties of the sort and truncation -/

theorem insertDesc_perm (p : SR) (l : List SR) : List.Perm (insertDesc p l) (p :: l) := by
  induction l with
  | nil => exact List.Perm.refl _
  | cons x xs ih =>
    unfold insertDesc
    split
    · exact List.Perm.refl _
    · exact (ih.cons x).trans (List.Perm.swap _ _ _)

theorem sortDesc_perm (l : List SR) : List.Perm (sortDesc l) l := by
  induction l with
  | nil => exact List.Perm.refl _
  | cons x xs ih => exact (insertDesc_perm x (sortDesc xs)).trans (ih.cons x)

theorem insertDesc_sorted {p : SR} {l : List SR}
    (hl : l.Pairwise (fun a b => b.similarity ≤ a.similarity)) :
    (insertDesc p l).Pairwise (fun a b => b.similarity ≤ a.similarity) := by
  induction l with
  | nil => simp [insertDesc]
  | cons x xs ih =>
    unfold insertDesc
    split
    · rename_i hge
      refine List.pairwise_cons.mpr ⟨?_, hl⟩
      intro b hb
      rcases List.mem_cons.mp hb with rfl | hb
      · exact hge
      · exact le_trans ((List.pairwise_cons.mp hl).1 b hb) hge
    · rename_i hlt
      have hx := List.pairwise_cons.mp hl
      refine List.pairwise_cons.mpr ⟨?_, ih hx.2⟩
      intro b hb
      have hb' : b ∈ p :: xs := (insertDesc_perm p xs).mem_iff.mp hb
      rcases List.mem_cons.mp hb' with rfl | hbxs
      · exact le_of_not_le hlt
      · exact hx.1 b hbxs

theorem sortDesc_sorted (l : List SR) :
    (sortDesc l).Pairwise (fun a b => b.similarity ≤ a.similarity) := by
  induction l with
  | nil => exact List.Pairwise.nil
  | cons x xs ih => exact insertDesc_sorted ih

/-! ### Claim theorems for the hybrid search engine -/

/-- **C1, counterexample.**  The claim as stated fails when the external
store reports a vector similarity above the keyword tier `2.0`: product
id 1 is found by both the keyword strategy (fixed similarity `2.0`) and
the vector strategy (store score `5/2`), yet the merged entry keeps the
vector score and `matchType = vector`, because the merge loop overwrites
on strictly higher similarity. -/
theorem C1_counterexample :
    (∃ b ∈ [(Except.ok [(⟨1⟩ : DBRow)] : Except (List Char) (List DBRow))],
      ∃ r ∈ recover b, r.id = 1) ∧
    (∃ v ∈ recover (Except.ok [(⟨1, 5/2⟩ : VRow)] : Except (List Char) (List VRow)),
      v.id = 1) ∧
    ¬ (∀ e ∈ searchProducts [Except.ok [⟨1⟩]] none (Except.ok [⟨1, 5/2⟩]) 5,
        e.id = 1 → e.similarity = 2 ∧ e.rtype = .keyword) := by
  refine ⟨⟨_, List.mem_singleton_self _, ⟨1⟩, List.mem_singleton_self _, rfl⟩,
    ⟨⟨1, 5/2⟩, List.mem_singleton_self _, rfl⟩, ?_⟩
  have hout : searchProducts [Except.ok [⟨1⟩]] none (Except.ok [⟨1, 5/2⟩]) 5 =
      [⟨1, 5/2, .vector⟩] := by
    norm_num [searchProducts, mergeBatches, mergeStep, updateFirst, sortDesc, insertDesc,
      recover, tagKeyword, tagVector, List.foldl, List.any]
  intro h
  have := (h ⟨1, 5/2, .vector⟩ (by rw [hout]; exact List.mem_singleton_self _) rfl).1
  norm_num at this

/-- **C1 (amended): keyword precedence.**  If product id `i` appears in one
of the keyword strategy's result batches (where it is tagged with the fixed
similarity `2.0`) and in the vector strategy's result batch, and no vector
score for `i` exceeds the keyword tier `2.0`, then every entry for `i` in
the final merged list returned by `searchProducts` has similarity `2.0`
and matchType `keyword`, not the vector score. -/
theorem C1_keyword_precedence
    (keywordOutcomes : List (Except (List Char) (List DBRow)))
    (fuzzyOutcome : Option (Except (List Char) (List DBRow)))
    (vectorOutcome : Except (List Char) (List VRow))
    (matchCount : Nat) (i : Nat)
    (hkw : ∃ b ∈ keywordOutcomes, ∃ r ∈ recover b, r.id = i)
    (_hvec : ∃ v ∈ recover vectorOutcome, v.id = i)
    (hbound : ∀ v ∈ recover vectorOutcome, v.id = i → v.similarity ≤ 2) :
    ∀ e ∈ searchProducts keywordOutcomes fuzzyOutcome vectorOutcome matchCount,
      e.id = i → e.similarity = 2 ∧ e.rtype = .keyword := by
  intro e he hei
  have hmerged :
      ∀ x ∈ mergeBatches (strategyBatches keywordOutcomes fuzzyOutcome vectorOutcome),
        keywordWins i x := by
    unfold mergeBatches strategyBatches
    rw [List.append_assoc, List.flatten_append, List.foldl_append]
    -- Phase 1: the keyword section only contains (2.0, keyword)-tagged rows.
    have hkwrows : ∀ r ∈ (keywordOutcomes.map
        (fun o => (recover o).map tagKeyword)).flatten, isKeywordTag r := by
      intro r hr
      rcases List.mem_flatten.mp hr with ⟨b, hb, hrb⟩
      rcases List.mem_map.mp hb with ⟨o, _, rfl⟩
      rcases List.mem_map.mp hrb with ⟨row, _, rfl⟩
      exact ⟨rfl, rfl⟩
    have hphase1 := foldl_mergeStep_all_keywordTag hkwrows []
      (by intro e he; cases he)
    -- Product i is present after the keyword section.
    have hi : i ∈ (((keywordOutcomes.map
        (fun o => (recover o).map tagKeyword)).flatten.foldl mergeStep []).map SR.id) := by
      rcases hkw with ⟨b, hb, r, hr, hrid⟩
      have hmemrow : tagKeyword r ∈ (keywordOutcomes.map
          (fun o => (recover o).map tagKeyword)).flatten := by
        refine List.mem_flatten.mpr ⟨(recover b).map tagKeyword, ?_, List.mem_map_of_mem _ hr⟩
        exact List.mem_map_of_mem _ hb
      simpa [tagKeyword, hrid] using mem_map_id_foldl_of_mem_rows hmemrow []
    -- Phase 2: every later row for product i scores at most 2.0.
    refine foldl_mergeStep_keywordWins ?_ (fun e he _ => hphase1 e he) hi
    intro r hr hrid
    rcases List.mem_flatten.mp hr with ⟨b, hb, hrb⟩
    rcases List.mem_append.mp hb with h | h
    · rcases fuzzyOutcome with _ | o
      · cases h
      · rcases List.mem_singleton.mp h with rfl
        rcases List.mem_map.mp hrb with ⟨row, _, rfl⟩
        norm_num [tagFuzzy]
    · rcases List.mem_singleton.mp h with rfl
      rcases List.mem_map.mp hrb with ⟨row, hrow, rfl⟩
      exact hbound row hrow hrid
  have hmem : e ∈ sortDesc
      (mergeBatches (strategyBatches keywordOutcomes fuzzyOutcome vectorOutcome)) :=
    List.mem_of_mem_take (by simpa only [searchProducts] using he)
  exact hmerged e ((sortDesc_perm _).mem_iff.mp hmem) hei

theorem mergeStep_nodup_id {acc : List SR} (p : SR)
    (h : (acc.map SR.id).Nodup) : ((mergeStep acc p).map SR.id).Nodup := by
  unfold mergeStep
  split
  · rwa [updateFirst_map_id]
  · rename_i hany
    rw [List.map_append]
    refine List.nodup_append.mpr ⟨h, List.nodup_singleton _, ?_⟩
    intro a ha ha'
    rcases List.mem_map.mp ha with ⟨y, hy, rfl⟩
    rcases List.mem_singleton.mp ha' with h'
    exact hany (List.any_eq_true.mpr ⟨y, hy, by simp [h']⟩)

theorem foldl_mergeStep_nodup_id (rows : List SR) {acc : List SR}
    (h : (acc.map SR.id).Nodup) : ((rows.foldl mergeStep acc).map SR.id).Nodup := by
  induction rows generalizing acc with
  | nil => exact h
  | cons r rs ih => exact ih (mergeStep_nodup_id r h)

/-- **C2: dedup invariant.**  For every configuration of strategy outcomes
(hence for every query and store state) and every `matchCount`, no two
entries of the list returned by `searchProducts` share an `id`. -/
theorem C2_dedup_by_id (keywordOutcomes : List (Except (List Char) (List DBRow)))
    (fuzzyOutcome : Option (Except (List Char) (List DBRow)))
    (vectorOutcome : Except (List Char) (List VRow)) (matchCount : Nat) :
    ((searchProducts keywordOutcomes fuzzyOutcome vectorOutcome matchCount).map
      SR.id).Nodup := by
  have hmerge : ((mergeBatches
      (strategyBatches keywordOutcomes fuzzyOutcome vectorOutcome)).map SR.id).Nodup :=
    foldl_mergeStep_nodup_id _ List.nodup_nil
  have hsort : ((sortDesc (mergeBatches
      (strategyBatches keywordOutcomes fuzzyOutcome vectorOutcome))).map SR.id).Nodup :=
    hmerge.perm ((sortDesc_perm _).map SR.id).symm
  unfold searchProducts
  exact hsort.sublist ((List.take_sublist _ _).map SR.id)

/-- **C7: local strategy failure recovery.**  A failed strategy (timeout or
error from the store / embedding client) contributes exactly the empty
batch: replacing any failed outcome by a successful empty batch leaves the
result of `searchProducts` unchanged, so the engine still returns the
merged results of the remaining strategies.  Moreover the returned list is
always ranked (sorted descending by similarity).  Totality of the Lean
function mirrors the `try`/`catch` envelopes: `searchProducts` never
throws. -/
theorem C7_strategy_failure_recovery
    (keywordOutcomes₁ keywordOutcomes₂ : List (Except (List Char) (List DBRow)))
    (fuzzyOutcome : Option (Except (List Char) (List DBRow)))
    (vectorOutcome : Except (List Char) (List VRow))
    (err : List Char) (matchCount : Nat) :
    (searchProducts keywordOutcomes₁ fuzzyOutcome (Except.error err) matchCount =
        searchProducts keywordOutcomes₁ fuzzyOutcome (Except.ok []) matchCount) ∧
    (searchProducts (keywordOutcomes₁ ++ [Except.error err] ++ keywordOutcomes₂)
        fuzzyOutcome vectorOutcome matchCount =
      searchProducts (keywordOutcomes₁ ++ [Except.ok []] ++ keywordOutcomes₂)
        fuzzyOutcome vectorOutcome matchCount) ∧
    (searchProducts keywordOutcomes₁ (some (Except.error err)) vectorOutcome matchCount =
        searchProducts keywordOutcomes₁ (some (Except.ok [])) vectorOutcome matchCount) ∧
    (searchProducts keywordOutcomes₁ fuzzyOutcome (Except.error err)
        matchCount).Pairwise (fun a b => b.similarity ≤ a.similarity) := by
  refine ⟨?_, ?_, ?_, ?_⟩
  · simp [searchProducts, strategyBatches, recover]
  · simp [searchProducts, strategyBatches, recover]
  · simp [searchProducts, strategyBatches, recover]
  · exact (sortDesc_sorted _).sublist (List.take_sublist _ _)

/-- **C1, witness.**  Concrete instance: id 1 found by keyword (tag 2.0)
and by vector with store score 1/2; the merged head keeps the keyword tag. -/
theorem C1_witness :
    (SR.mk 1 2 .keyword) ∈ searchProducts [Except.ok [⟨1⟩]] none (Except.ok [⟨1, 1/2⟩]) 5 ∧
    ((SR.mk 1 2 .keyword).similarity = 2 ∧ (SR.mk 1 2 .keyword).rtype = .keyword) := by
  have hout : searchProducts [Except.ok [⟨1⟩]] none (Except.ok [⟨1, 1/2⟩]) 5 =
      [⟨1, 2, .keyword⟩] := by
    norm_num [searchProducts, mergeBatches, mergeStep, updateFirst, sortDesc, insertDesc,
      recover, tagKeyword, tagVector, List.foldl, List.any]
  refine ⟨by rw [hout]; exact List.mem_singleton_self _, ?_⟩
  exact C1_keyword_precedence [Except.ok [⟨1⟩]] none (Except.ok [⟨1, 1/2⟩]) 5 1
    ⟨_, List.mem_singleton_self _, ⟨1⟩, List.mem_singleton_self _, rfl⟩
    ⟨⟨1, 1/2⟩, List.mem_singleton_self _, rfl⟩
    (by intro v hv _; rcases List.mem_singleton.mp hv with rfl; norm_num)
    ⟨1, 2, .keyword⟩ (by rw [hout]; exact List.mem_singleton_self _) rfl

/-! ## Datasheet references (`extractDatasheetReferences`,
geminiService.ts lines 493-525) -/

/-- A product row as selected for context building
(`id, product_code, name, category, specifications, description,
applications, pdf_storage_url`).  `product_code = []` models a missing or
empty (falsy) code; `pdf_storage_url` is `none` when the column is null.
The columns not consulted by `extractDatasheetReferences` are elided. -/
structure ProductRow where
  id : Nat
  product_code : List Char
  name : List Char
  category : List Char
  pdf_storage_url : Option (List Char)
deriving DecidableEq, Repr

/-- The fixed storage base `PDF_STORAGE_BASE`. -/
def PDF_STORAGE_BASE : List Char :=
  "https://atmvjoymebksyajxfhwo.supabase.co/storage/v1/object/public/datasheets".data

/-- Source `product.pdf_storage_url || `${code}.pdf``: the record's stored pdf
filename when present (and non-empty, `||` being a falsiness test),
defaulting to `productCode + ".pdf"`. -/
def pdfFilenameOf (p : ProductRow) : List Char :=
  match p.pdf_storage_url with
  | some u => if u = [] then p.product_code ++ ".pdf".data else u
  | none => p.product_code ++ ".pdf".data

/-- Characters `encodeURIComponent` leaves unescaped:
`A-Z a-z 0-9 - _ . ! ~ * ' ( )`. -/
def isUnreservedURI (c : Char) : Bool :=
  isLetterCh c || isDigitCh c || c = '-' || c = '_' || c = '.' || c = '!' ||
    c = '~' || c = '*' || c = '\'' || c = '(' || c = ')'

def hexDigitCh (n : Nat) : Char :=
  if n < 10 then Char.ofNat (48 + n) else Char.ofNat (55 + n)

/-- Encoding `%XY` with uppercase hex, as produced by `encodeURIComponent`. -/
def percentByte (b : Nat) : List Char :=
  ['%', hexDigitCh (b / 16), hexDigitCh (b % 16)]

/-- UTF-8 bytes of a scalar value (what `encodeURIComponent` escapes). -/
def utf8Bytes (c : Char) : List Nat :=
  let n := c.toNat
  if n < 128 then [n]
  else if n < 2048 then [192 + n / 64, 128 + n % 64]
  else if n < 65536 then [224 + n / 4096, 128 + (n / 64) % 64, 128 + n % 64]
  else [240 + n / 262144, 128 + (n / 4096) % 64, 128 + (n / 64) % 64, 128 + n % 64]

/-- JS `encodeURIComponent(s)`. -/
def encodeURIComponent (s : List Char) : List Char :=
  (s.map (fun c =>
    if isUnreservedURI c then [c] else ((utf8Bytes c).map percentByte).flatten)).flatten

/-- The datasheet URL built for a product:
`${PDF_STORAGE_BASE}/${encodeURIComponent(pdfFilename)}`. -/
def datasheetUrl (p : ProductRow) : List Char :=
  PDF_STORAGE_BASE ++ '/' :: encodeURIComponent (pdfFilenameOf p)

/-- A display-ready `DatasheetReference`. -/
structure DatasheetRef where
  filename : List Char
  displayName : List Char
  productCode : List Char
  url : List Char
deriving DecidableEq, Repr

/-- The entry built for one product:
`{ filename: code, displayName: `${code} — ${name || category || ''}`.trim(),
productCode: code, url: … }`. -/
def mkDatasheetEntry (p : ProductRow) : DatasheetRef :=
  { filename := p.product_code
    displayName := trimStr (p.product_code ++ " — ".data ++
      (if p.name = [] then (if p.category = [] then [] else p.category) else p.name))
    productCode := p.product_code
    url := datasheetUrl p }

/-- Source `extractDatasheetReferences(searchResults)`: skip products without a
code; key the `uniqueProducts` map by `code.toLowerCase().trim()`, first
entry wins; values in insertion order. -/
def extractDatasheetAux (seen : List (List Char)) : List ProductRow → List DatasheetRef
  | [] => []
  | p :: ps =>
    if p.product_code = [] then extractDatasheetAux seen ps
    else if seen.contains (trimStr (lowerStr p.product_code)) then
      extractDatasheetAux seen ps
    else mkDatasheetEntry p :: extractDatasheetAux (trimStr (lowerStr p.product_code) :: seen) ps

def extractDatasheetReferences (searchResults : List ProductRow) : List DatasheetRef :=
  extractDatasheetAux [] searchResults

theorem extractDatasheetAux_mem {seen : List (List Char)} {rs : List ProductRow}
    {d : DatasheetRef} (hd : d ∈ extractDatasheetAux seen rs) :
    ∃ p ∈ rs, p.product_code ≠ [] ∧ d = mkDatasheetEntry p := by
  induction rs generalizing seen with
  | nil => cases hd
  | cons p ps ih =>
    unfold extractDatasheetAux at hd
    by_cases hc : p.product_code = []
    · rw [if_pos hc] at hd
      rcases ih hd with ⟨q, hq, hqc, hqd⟩
      exact ⟨q, List.mem_cons_of_mem _ hq, hqc, hqd⟩
    · rw [if_neg hc] at hd
      split at hd
      · rcases ih hd with ⟨q, hq, hqc, hqd⟩
        exact ⟨q, List.mem_cons_of_mem _ hq, hqc, hqd⟩
      · rcases List.mem_cons.mp hd with rfl | hd'
        · exact ⟨p, List.mem_cons_self _ _, hc, rfl⟩
        · rcases ih hd' with ⟨q, hq, hqc, hqd⟩
          exact ⟨q, List.mem_cons_of_mem _ hq, hqc, hqd⟩

/-- **C9: datasheet URL construction.**  Every `DatasheetReference`
produced from a search-result set comes from some result row, and its
`url` is exactly the fixed storage base, a slash, and the URL-encoded
datasheet filename, where the filename is the row's stored
`pdf_storage_url` when present and `productCode + ".pdf"` when absent. -/
theorem C9_datasheet_url (searchResults : List ProductRow) (d : DatasheetRef)
    (hd : d ∈ extractDatasheetReferences searchResults) :
    ∃ p ∈ searchResults, d.productCode = p.product_code ∧
      d.url = PDF_STORAGE_BASE ++ '/' :: encodeURIComponent (pdfFilenameOf p) := by
  rcases extractDatasheetAux_mem hd with ⟨p, hp, _, rfl⟩
  exact ⟨p, hp, rfl, rfl⟩

/-- **C9, witness.**  A row with a stored pdf filename containing a space:
the URL percent-encodes it; and a row without a stored filename would
default to `code + ".pdf"`. -/
theorem C9_witness :
    (mkDatasheetEntry ⟨7, "JB02HR".data, "Fire Hose Cabinet".data, "Fire Hose".data,
        some "JB 02HR.pdf".data⟩) ∈
      extractDatasheetReferences [⟨7, "JB02HR".data, "Fire Hose Cabinet".data,
        "Fire Hose".data, some "JB 02HR.pdf".data⟩] ∧
    (∃ p ∈ [(⟨7, "JB02HR".data, "Fire Hose Cabinet".data, "Fire Hose".data,
        some "JB 02HR.pdf".data⟩ : ProductRow)],
      (mkDatasheetEntry ⟨7, "JB02HR".data, "Fire Hose Cabinet".data, "Fire Hose".data,
        some "JB 02HR.pdf".data⟩).productCode = p.product_code ∧
      (mkDatasheetEntry ⟨7, "JB02HR".data, "Fire Hose Cabinet".data, "Fire Hose".data,
        some "JB 02HR.pdf".data⟩).url =
        PDF_STORAGE_BASE ++ '/' :: encodeURIComponent (pdfFilenameOf p)) ∧
    encodeURIComponent (pdfFilenameOf ⟨7, "JB02HR".data, "Fire Hose Cabinet".data,
      "Fire Hose".data, some "JB 02HR.pdf".data⟩) = "JB%2002HR.pdf".data :=
  ⟨by decide,
    C9_datasheet_url _ _ (by decide),
    by decide⟩

/-! ## Citation filter (`filterDatasheetsByCitations`,
geminiService.ts lines 528-582)

The three citation regexes are embedded as explicit scanners.  Each
`exec`-loop with the `g` flag is modelled as a scan that tries the pattern
at each position, and on a match emits the lowercased capture group and
resumes after the match (JS `lastIndex`); on a miss it advances one
character.  The matchers use greedy character-class runs; in each case the
only backtracking the JS engine could perform is provably fruitless (the
follower character is never a member of the preceding class), so the
greedy reading is exact.  The scans are fuelled by the text length; every
match consumes at least one character, so the fuel never runs out early. -/

/-- Suffix `[\d.]+[A-Za-z\d]*` (after the letters of the code group).  Both runs
are greedy; shortening `[\d.]+` only hands digits to `[A-Za-z\d]*`, so the
set of reachable end positions has a unique maximal point, which is the
one returned here, and no other end can be followed by `**` or `\s`
(the followers used by the bold patterns). -/
def codeTail (letters : List Char) (cs : List Char) :
    Option (List Char × List Char) :=
  match cs with
  | c :: _ =>
    if isDotDigitCh c then
      some (letters ++ (cs.takeWhile isDotDigitCh) ++
          ((cs.dropWhile isDotDigitCh).takeWhile isAlnumCh),
        (cs.dropWhile isDotDigitCh).dropWhile isAlnumCh)
    else none
  | [] => none

/-- The capture group `([A-Z]{2,3}[\d.]+[A-Za-z\d]*)` of the two bold
patterns, /i flag.  `{2,3}` greedily takes a third letter when present: if
the three-letter reading fails (no `[\d.]` follows), the two-letter
reading starts `[\d.]+` on that same third letter and fails as well, so
committing to the greedy choice is faithful. -/
def matchCodeCore (cs : List Char) : Option (List Char × List Char) :=
  match cs with
  | a :: b :: rest =>
    if isLetterCh a && isLetterCh b then
      match rest with
      | c :: rest2 =>
        if isLetterCh c then codeTail [a, b, c] rest2 else codeTail [a, b] (c :: rest2)
      | [] => none
    else none
  | _ => none

/-- Pattern 1: `/\*\*([A-Z]{2,3}[\d.]+[A-Za-z\d]*)\*\*/gi`. -/
def matchBoldCode (cs : List Char) : Option (List Char × List Char) :=
  match cs with
  | '*' :: '*' :: rest =>
    match matchCodeCore rest with
    | some (g, '*' :: '*' :: r2) => some (g, r2)
    | _ => none
  | _ => none

/-- Pattern 2: `/\*\*([A-Z]{2,3}[\d.]+[A-Za-z\d]*)\s+[^*]+\*\*/gi`.
After the code group: `\s+[^*]+` covers exactly the non-star run up to the
closing `**` provided it starts with a whitespace character and has length
at least two (one `\s`, one `[^*]`). -/
def matchBoldDesc (cs : List Char) : Option (List Char × List Char) :=
  match cs with
  | '*' :: '*' :: rest =>
    match matchCodeCore rest with
    | some (g, r) =>
      match r with
      | c :: _ =>
        if isSpaceCh c then
          match r.dropWhile (fun ch => ch != '*') with
          | '*' :: '*' :: r2 =>
            if 2 ≤ (r.takeWhile (fun ch => ch != '*')).length then some (g, r2) else none
          | _ => none
        else none
      | [] => none
    | none => none
  | _ => none

/-- Scan the text with one pattern, lowercasing each capture
(`match[1].toLowerCase()`). -/
def scanFuel (m : List Char → Option (List Char × List Char)) :
    Nat → List Char → List (List Char)
  | 0, _ => []
  | _ + 1, [] => []
  | n + 1, c :: rest =>
    match m (c :: rest) with
    | some (g, r) => lowerStr g :: scanFuel m n r
    | none => scanFuel m n rest

/-- Case-insensitive literal prefix (the table prefixes are stored
lowercase, so one `toLowerCh` suffices). -/
def matchPrefixCI : List Char → List Char → Option (List Char × List Char)
  | [], cs => some ([], cs)
  | _ :: _, [] => none
  | p :: ps, c :: cs =>
    if toLowerCh c = p then
      match matchPrefixCI ps cs with
      | some (m, r) => some (c :: m, r)
      | none => none
    else none

/-- Boundary `\b` looking right: holds at end of text or before a non-word char. -/
def headNonWord (cs : List Char) : Bool :=
  match cs with
  | [] => true
  | c :: _ => !isWordCh c

/-- Suffix `\d{minD,maxD}[A-Z]{0,4}\b` (with the /i flag).  Both runs are greedy
maximal; a shorter digit run would leave a digit (a word char, not a
letter) in front, and a shorter letter run a letter, so backtracking can
never restore the trailing `\b` once the greedy reading fails. -/
def matchFamilyCore (minD maxD : Nat) (cs : List Char) :
    Option (List Char × List Char) :=
  if decide (minD ≤ (cs.takeWhile isDigitCh).length) &&
      decide ((cs.takeWhile isDigitCh).length ≤ maxD) then
    if decide (((cs.dropWhile isDigitCh).takeWhile isLetterCh).length ≤ 4) &&
        headNonWord ((cs.dropWhile isDigitCh).dropWhile isLetterCh) then
      some ((cs.takeWhile isDigitCh) ++ ((cs.dropWhile isDigitCh).takeWhile isLetterCh),
        (cs.dropWhile isDigitCh).dropWhile isLetterCh)
    else none
  else none

/-- One alternative of pattern 3. -/
def matchFamOne (pfx : List Char) (minD maxD : Nat) (cs : List Char) :
    Option (List Char × List Char) :=
  match matchPrefixCI pfx cs with
  | some (m, r) =>
    match matchFamilyCore minD maxD r with
    | some (t, r2) => some (m ++ t, r2)
    | none => none
  | none => none

/-- The alternatives of pattern 3
`/\b(JB\d{2,3}[A-Z]{0,4}|RS\d{2,4}[A-Z]{0,4}|SOS\d{2,4}[A-Z]{0,4}|HS\d{2,4}[A-Z]{0,4})\b/gi`,
in source order (their first letters are pairwise distinct, so at most one
can apply at a position). -/
def famTable : List (List Char × Nat × Nat) :=
  [("jb".data, 2, 3), ("rs".data, 2, 4), ("sos".data, 2, 4), ("hs".data, 2, 4)]

def matchFamilyAt (cs : List Char) : Option (List Char × List Char) :=
  famTable.findSome? (fun e => matchFamOne e.1 e.2.1 e.2.2 cs)

/-- Scan for pattern 3.  `prevW` records whether the previous character is
a word character (for the leading `\b`): when it is, no alternative can
match — the first pattern character is a letter, so a successful match
needs a word char right here and `\b` would be false — hence the position
is skipped without trying. -/
def scanFamFuel : Nat → Bool → List Char → List (List Char)
  | 0, _, _ => []
  | _ + 1, _, [] => []
  | n + 1, prevW, c :: rest =>
    if prevW then scanFamFuel n (isWordCh c) rest
    else
      match matchFamilyAt (c :: rest) with
      | some (g, r) => lowerStr g :: scanFamFuel n true r
      | none => scanFamFuel n (isWordCh c) rest

/-- The cited-code set (JS builds a `Set` in insertion order across the
three patterns; a list with possible duplicates has the same membership). -/
def citedCodes (text : List Char) : List (List Char) :=
  scanFuel matchBoldCode text.length text ++ scanFuel matchBoldDesc text.length text ++
    scanFamFuel text.length false text

/-- Source `(ds.productCode || ds.filename).toLowerCase()` (empty string is
falsy, hence the fallback to `filename`). -/
def dsCodeOf (ds : DatasheetRef) : List Char :=
  lowerStr (if ds.productCode = [] then ds.filename else ds.productCode)

/-- One candidate against one cited code: exact match, cited is a prefix
of the datasheet code with `cited.length >= 4`, or the datasheet code is a
prefix of the cited code with `dsCode.length >= 4`. -/
def citationHit (dsCode cited : List Char) : Bool :=
  dsCode == cited || (cited.isPrefixOf dsCode && decide (4 ≤ cited.length)) ||
    (dsCode.isPrefixOf cited && decide (4 ≤ dsCode.length))

/-- Source `filterDatasheetsByCitations(responseText, allDatasheets)` (the third
`searchResults` argument of the source function is unused). -/
def filterDatasheetsByCitations (responseText : List Char)
    (allDatasheets : List DatasheetRef) : List DatasheetRef :=
  if responseText.isEmpty || allDatasheets.isEmpty then []
  else allDatasheets.filter
    (fun ds => (citedCodes responseText).any (citationHit (dsCodeOf ds)))

theorem citedCodes_nil : citedCodes [] = [] := rfl

/-- **C10: degenerate citation-filter inputs.**  An empty (or absent — the
falsy check covers both) response text, or an empty candidate list, makes
`filterDatasheetsByCitations` return the empty list; totality of the Lean
function mirrors that no error is raised. -/
theorem C10_citation_filter_empty :
    (∀ dsl : List DatasheetRef, filterDatasheetsByCitations [] dsl = []) ∧
    (∀ text : List Char, filterDatasheetsByCitations text [] = []) := by
  constructor
  · intro dsl
    simp [filterDatasheetsByCitations]
  · intro text
    simp [filterDatasheetsByCitations]

/-- **C3: citation filter membership / subset property.**  A candidate
datasheet is in the output of `filterDatasheetsByCitations` iff it is in
the candidate list (so the output is always a subset of the candidates)
and some cited code extracted from the response matches its lowercased
code — exactly, or as a prefix of it with the cited code at least 4
characters, or extended by it with the datasheet code at least 4
characters. -/
theorem citationHit_iff (dsCode c : List Char) :
    citationHit dsCode c = true ↔
      (dsCode = c ∨ (c <+: dsCode ∧ 4 ≤ c.length) ∨
        (dsCode <+: c ∧ 4 ≤ dsCode.length)) := by
  simp [citationHit, Bool.or_eq_true, Bool.and_eq_true, List.isPrefixOf_iff_prefix,
    decide_eq_true_eq, beq_iff_eq, or_assoc]

theorem C3_citation_filter_membership (text : List Char) (dsl : List DatasheetRef)
    (d : DatasheetRef) :
    d ∈ filterDatasheetsByCitations text dsl ↔
      d ∈ dsl ∧ ∃ c ∈ citedCodes text,
        (dsCodeOf d = c ∨ (c <+: dsCodeOf d ∧ 4 ≤ c.length) ∨
          (dsCodeOf d <+: c ∧ 4 ≤ (dsCodeOf d).length)) := by
  have hrw : ∀ c, citationHit (dsCodeOf d) c = true ↔
      (dsCodeOf d = c ∨ (c <+: dsCodeOf d ∧ 4 ≤ c.length) ∨
        (dsCodeOf d <+: c ∧ 4 ≤ (dsCodeOf d).length)) :=
    fun c => citationHit_iff (dsCodeOf d) c
  unfold filterDatasheetsByCitations
  split
  · rename_i hguard
    constructor
    · intro h
      exact absurd h (List.not_mem_nil d)
    · rintro ⟨hd, c, hc, _⟩
      rcases Bool.or_eq_true_iff.mp hguard with h | h
      · rw [List.isEmpty_iff] at h
        subst h
        rw [citedCodes_nil] at hc
        exact absurd hc (List.not_mem_nil c)
      · rw [List.isEmpty_iff] at h
        subst h
        exact absurd hd (List.not_mem_nil d)
  · rw [List.mem_filter]
    simp only [List.any_eq_true]
    constructor
    · rintro ⟨hd, c, hc, hhit⟩
      exact ⟨hd, c, hc, (hrw c).mp hhit⟩
    · rintro ⟨hd, c, hc, hhit⟩
      exact ⟨hd, c, hc, (hrw c).mpr hhit⟩

/-! ## C4: which tokens reach the cited-code set -/

/-- Helper for `specProductCodeShaped`: `[\d.]+` then letters to the end. -/
def specShapedTail (cs : List Char) : Bool :=
  !(cs.takeWhile isDotDigitCh).isEmpty && (cs.dropWhile isDotDigitCh).all isLetterCh

/-- Modelled from the spec: a "product-code-shaped token" — two-to-three
letters followed by digits/dot and optional trailing letters.  This is the
claim's notion of token shape, used to state C4; the code's own extraction
is `citedCodes`. -/
def specProductCodeShaped (tok : List Char) : Bool :=
  match tok with
  | a :: b :: rest =>
    isLetterCh a && isLetterCh b &&
      (match rest with
        | c :: rest2 =>
          if isLetterCh c then specShapedTail rest2 else specShapedTail (c :: rest2)
        | [] => false)
  | _ => false

/-- **C4, counterexample.**  `AB123` is product-code-shaped and appears
bare (unbolded) in the response text, yet it is not added to the
cited-code set: the bare-token pattern only recognises the fixed families
`JB/RS/SOS/HS`. -/
theorem C4_counterexample :
    specProductCodeShaped "AB123".data = true ∧
    "AB123".data <:+: "The AB123 unit.".data ∧
    lowerStr "AB123".data ∉ citedCodes "The AB123 unit.".data := by
  refine ⟨by decide, ⟨"The ".data, " unit.".data, by decide⟩, by decide⟩

/-- One family alternative of the bare-token pattern, as a shape predicate
on a whole token: the (lowercased) prefix, then `minD`-to-`maxD` digits,
then up to four letters, nothing else. -/
def checkFam (pfx : List Char) (minD maxD : Nat) (tok : List Char) : Bool :=
  pfx.isPrefixOf (tok.map toLowerCh) &&
    (decide (minD ≤ ((tok.drop pfx.length).takeWhile isDigitCh).length) &&
      decide (((tok.drop pfx.length).takeWhile isDigitCh).length ≤ maxD) &&
      ((tok.drop pfx.length).dropWhile isDigitCh).all isLetterCh &&
      decide (((tok.drop pfx.length).dropWhile isDigitCh).length ≤ 4))

/-- A token matching one of the four family alternatives of pattern 3. -/
def familyShapedB (tok : List Char) : Bool :=
  checkFam "jb".data 2 3 tok || checkFam "rs".data 2 4 tok ||
    checkFam "sos".data 2 4 tok || checkFam "hs".data 2 4 tok

/-! ### Character-class facts -/

theorem isLetterCh_of_toLowerCh (c d : Char) (h : toLowerCh c = d)
    (hd : isLetterCh d = true) : isLetterCh c = true := by
  unfold toLowerCh at h
  split at h
  · rename_i hu
    simp [isLetterCh, hu]
  · rw [h]
    exact hd

theorem word_of_letter {c : Char} (h : isLetterCh c = true) : isWordCh c = true := by
  simp [isWordCh, h]

theorem word_of_digit {c : Char} (h : isDigitCh c = true) : isWordCh c = true := by
  simp [isWordCh, h]

theorem letter_not_digit {c : Char} (h : isLetterCh c = true) : isDigitCh c = false := by
  by_contra hc
  rw [Bool.not_eq_false] at hc
  simp only [isDigitCh, Bool.and_eq_true, decide_eq_true_eq] at hc
  rcases Bool.or_eq_true_iff.mp h with h' | h' <;>
    · simp only [isUpperCh, isLowerCh, Bool.and_eq_true, decide_eq_true_eq] at h'
      omega

theorem not_letter_of_not_word {c : Char} (h : isWordCh c = false) :
    isLetterCh c = false := by
  by_contra hc
  rw [Bool.not_eq_false] at hc
  rw [word_of_letter hc] at h
  cases h

theorem not_digit_of_not_word {c : Char} (h : isWordCh c = false) :
    isDigitCh c = false := by
  by_contra hc
  rw [Bool.not_eq_false] at hc
  rw [word_of_digit hc] at h
  cases h

/-! ### `matchPrefixCI` -/

theorem matchPrefixCI_spec :
    ∀ (pfx cs m r : List Char), matchPrefixCI pfx cs = some (m, r) →
      cs = m ++ r ∧ m.map toLowerCh = pfx := by
  intro pfx
  induction pfx with
  | nil =>
    intro cs m r h
    unfold matchPrefixCI at h
    rcases Option.some.inj h with h'
    rcases Prod.mk.injEq .. ▸ h' with ⟨rfl, rfl⟩
    exact ⟨rfl, rfl⟩
  | cons p ps ih =>
    intro cs m r h
    cases cs with
    | nil => cases h
    | cons c cs' =>
      unfold matchPrefixCI at h
      split at h
      · rename_i hlow
        cases hrec : matchPrefixCI ps cs' with
        | none => rw [hrec] at h; cases h
        | some pr =>
          rw [hrec] at h
          rcases Option.some.inj h with h'
          rcases Prod.mk.injEq .. ▸ h' with ⟨rfl, rfl⟩
          rcases ih cs' pr.1 pr.2 (by rw [hrec]) with ⟨hsplit, hmap⟩
          constructor
          · rw [List.cons_append, ← hsplit]
          · rw [List.map_cons, hmap, hlow]
      · cases h

theorem matchPrefixCI_of_lower (m rest : List Char) :
    matchPrefixCI (m.map toLowerCh) (m ++ rest) = some (m, rest) := by
  induction m with
  | nil => rfl
  | cons c m' ih =>
    simp only [List.map_cons, List.cons_append]
    unfold matchPrefixCI
    rw [if_pos rfl, ih]

/-! ### `matchFamilyCore` / `matchFamOne` / `matchFamilyAt`: what a match
consumes -/

theorem takeWhile_dropWhile_append (p : Char → Bool) :
    ∀ (l₁ : List Char), (∀ c ∈ l₁, p c = true) →
      ∀ (l₂ : List Char), (∀ c, l₂.head? = some c → p c = false) →
        (l₁ ++ l₂).takeWhile p = l₁ ∧ (l₁ ++ l₂).dropWhile p = l₂ := by
  intro l₁
  induction l₁ with
  | nil =>
    intro _ l₂ h₂
    cases l₂ with
    | nil => exact ⟨rfl, rfl⟩
    | cons c l₂' =>
      constructor
      · simp [List.takeWhile_cons, h₂ c rfl]
      · simp [List.dropWhile_cons, h₂ c rfl]
  | cons a l₁' ih =>
    intro h₁ l₂ h₂
    have hpa : p a = true := h₁ a (List.mem_cons_self _ _)
    have := ih (fun c hc => h₁ c (List.mem_cons_of_mem _ hc)) l₂ h₂
    constructor
    · simp [List.takeWhile_cons, hpa, this.1]
    · simp [List.dropWhile_cons, hpa, this.2]

theorem matchFamilyCore_spec {minD maxD : Nat} {cs g r : List Char}
    (h : matchFamilyCore minD maxD cs = some (g, r)) :
    cs = g ++ r ∧ (∀ c ∈ g, isWordCh c = true) ∧ headNonWord r = true := by
  unfold matchFamilyCore at h
  split at h
  · split at h
    · rename_i hbound
      rcases Option.some.inj h with h'
      rcases Prod.mk.injEq .. ▸ h' with ⟨rfl, rfl⟩
      refine ⟨?_, ?_, (Bool.and_eq_true ..).mp hbound |>.2⟩
      · rw [List.append_assoc, List.takeWhile_append_dropWhile,
          List.takeWhile_append_dropWhile]
      · intro c hc
        rcases List.mem_append.mp hc with hc | hc
        · exact word_of_digit (List.mem_takeWhile_imp hc)
        · exact word_of_letter (List.mem_takeWhile_imp hc)
    · cases h
  · cases h

theorem matchFamOne_spec (pfx : List Char) {minD maxD : Nat} {cs g r : List Char}
    (hpfx : ∀ c ∈ pfx, isLetterCh c = true) (hne : pfx ≠ [])
    (h : matchFamOne pfx minD maxD cs = some (g, r)) :
    cs = g ++ r ∧ g ≠ [] ∧ (∀ c ∈ g, isWordCh c = true) ∧ headNonWord r = true := by
  unfold matchFamOne at h
  split at h
  · rename_i m r0 hp
    split at h
    · rename_i t r2 hc
      rcases Option.some.inj h with h'
      rcases Prod.mk.injEq .. ▸ h' with ⟨rfl, rfl⟩
      rcases matchPrefixCI_spec pfx cs m r0 hp with ⟨hsplit, hmap⟩
      rcases matchFamilyCore_spec hc with ⟨hsplit2, hword2, hnw⟩
      refine ⟨by rw [hsplit, hsplit2, List.append_assoc], ?_, ?_, hnw⟩
      · intro hnil
        rcases List.append_eq_nil.mp hnil with ⟨h1, _⟩
        rw [h1] at hmap
        exact hne hmap.symm
      · intro c hcmem
        rcases List.mem_append.mp hcmem with hcm | hcm
        · refine word_of_letter ?_
          refine isLetterCh_of_toLowerCh c (toLowerCh c) rfl ?_
          refine hpfx _ ?_
          rw [← hmap]
          exact List.mem_map_of_mem _ hcm
        · exact hword2 c hcm
    · cases h
  · cases h

theorem matchFamilyAt_spec {cs g r : List Char}
    (h : matchFamilyAt cs = some (g, r)) :
    cs = g ++ r ∧ g ≠ [] ∧ (∀ c ∈ g, isWordCh c = true) ∧ headNonWord r = true := by
  unfold matchFamilyAt famTable at h
  simp only [List.findSome?] at h
  cases h1 : matchFamOne "jb".data 2 3 cs with
  | some pr =>
    rw [h1] at h
    rcases Option.some.inj h with rfl
    exact matchFamOne_spec "jb".data (by decide) (by decide) (by rw [h1])
  | none =>
    rw [h1] at h
    cases h2 : matchFamOne "rs".data 2 4 cs with
    | some pr =>
      rw [h2] at h
      rcases Option.some.inj h with rfl
      exact matchFamOne_spec "rs".data (by decide) (by decide) (by rw [h2])
    | none =>
      rw [h2] at h
      cases h3 : matchFamOne "sos".data 2 4 cs with
      | some pr =>
        rw [h3] at h
        rcases Option.some.inj h with rfl
        exact matchFamOne_spec "sos".data (by decide) (by decide) (by rw [h3])
      | none =>
        rw [h3] at h
        cases h4 : matchFamOne "hs".data 2 4 cs with
        | some pr =>
          rw [h4] at h
          rcases Option.some.inj h with rfl
          exact matchFamOne_spec "hs".data (by decide) (by decide) (by rw [h4])
        | none => rw [h4] at h; cases h

/-! ### Positive direction: a family-shaped token at a boundary matches -/

theorem matchFamilyCore_of_parts {minD maxD : Nat} {digs lets post : List Char}
    (hd : ∀ c ∈ digs, isDigitCh c = true)
    (hl : ∀ c ∈ lets, isLetterCh c = true)
    (hmin : minD ≤ digs.length) (hmax : digs.length ≤ maxD)
    (hlen : lets.length ≤ 4) (hpost : headNonWord post = true) :
    matchFamilyCore minD maxD (digs ++ (lets ++ post)) = some (digs ++ lets, post) := by
  have hhead1 : ∀ c, (lets ++ post).head? = some c → isDigitCh c = false := by
    intro c hc
    cases lets with
    | nil =>
      rw [List.nil_append] at hc
      cases post with
      | nil => simp at hc
      | cons q post' =>
        simp only [List.head?_cons] at hc
        obtain rfl := Option.some.inj hc
        exact not_digit_of_not_word (by simpa [headNonWord] using hpost)
    | cons l0 lets' =>
      rw [List.cons_append] at hc
      simp only [List.head?_cons] at hc
      obtain rfl := Option.some.inj hc
      exact letter_not_digit (hl _ (List.mem_cons_self _ _))
  have hhead2 : ∀ c, post.head? = some c → isLetterCh c = false := by
    intro c hc
    cases post with
    | nil => simp at hc
    | cons q post' =>
      simp only [List.head?_cons] at hc
      obtain rfl := Option.some.inj hc
      exact not_letter_of_not_word (by simpa [headNonWord] using hpost)
  have hstep1 := takeWhile_dropWhile_append isDigitCh digs hd (lets ++ post) hhead1
  have hstep2 := takeWhile_dropWhile_append isLetterCh lets hl post hhead2
  unfold matchFamilyCore
  rw [hstep1.1, hstep1.2, hstep2.1, hstep2.2]
  rw [if_pos (by simp [hmin, hmax]), if_pos (by simp [hlen, hpost])]

theorem checkFam_parts {pfx : List Char} {minD maxD : Nat} {tok : List Char}
    (h : checkFam pfx minD maxD tok = true) :
    ∃ m rest, tok = m ++ rest ∧ m.map toLowerCh = pfx ∧
      minD ≤ (rest.takeWhile isDigitCh).length ∧
      (rest.takeWhile isDigitCh).length ≤ maxD ∧
      (∀ c ∈ rest.dropWhile isDigitCh, isLetterCh c = true) ∧
      (rest.dropWhile isDigitCh).length ≤ 4 := by
  unfold checkFam at h
  rcases (Bool.and_eq_true ..).mp h with ⟨hpre, hrest⟩
  rcases (Bool.and_eq_true ..).mp hrest with ⟨hrest', hlen4⟩
  rcases (Bool.and_eq_true ..).mp hrest' with ⟨hbounds, hletters⟩
  rcases (Bool.and_eq_true ..).mp hbounds with ⟨hmin, hmax⟩
  have hprefix : pfx <+: tok.map toLowerCh := List.isPrefixOf_iff_prefix.mp hpre
  have hmap : (tok.take pfx.length).map toLowerCh = pfx := by
    rw [List.map_take]
    exact (List.prefix_iff_eq_take.mp hprefix).symm
  refine ⟨tok.take pfx.length, tok.drop pfx.length,
    (List.take_append_drop ..).symm, hmap, ?_, ?_, ?_, ?_⟩
  · exact of_decide_eq_true hmin
  · exact of_decide_eq_true hmax
  · intro c hc
    exact List.all_eq_true.mp hletters c hc
  · exact of_decide_eq_true hlen4

theorem matchFamOne_of_checkFam {pfx : List Char} {minD maxD : Nat} {tok post : List Char}
    (h : checkFam pfx minD maxD tok = true) (hpost : headNonWord post = true) :
    matchFamOne pfx minD maxD (tok ++ post) = some (tok, post) := by
  rcases checkFam_parts h with ⟨m, rest, rfl, hmap, hmin, hmax, hlets, hlen⟩
  have hdigs : ∀ c ∈ rest.takeWhile isDigitCh, isDigitCh c = true :=
    fun c hc => List.mem_takeWhile_imp hc
  have hrestEq : rest.takeWhile isDigitCh ++ rest.dropWhile isDigitCh = rest :=
    List.takeWhile_append_dropWhile ..
  have h1 : matchPrefixCI pfx (m ++ (rest ++ post)) = some (m, rest ++ post) := by
    rw [← hmap]
    exact matchPrefixCI_of_lower m (rest ++ post)
  have h2 : matchFamilyCore minD maxD (rest ++ post) = some (rest, post) := by
    have hcore := matchFamilyCore_of_parts hdigs hlets hmin hmax hlen hpost
    rw [← List.append_assoc, hrestEq] at hcore
    exact hcore
  simp only [matchFamOne, List.append_assoc, h1, h2]

theorem matchFamOne_none_of_head {p : Char} {ps cs : List Char} {mn mx : Nat}
    (h : ∀ c, cs.head? = some c → toLowerCh c ≠ p) :
    matchFamOne (p :: ps) mn mx cs = none := by
  cases cs with
  | nil => rfl
  | cons c cs' =>
    simp only [matchFamOne, matchPrefixCI, if_neg (h c rfl)]

theorem checkFam_head {pfx : List Char} {minD maxD : Nat} {tok : List Char}
    {p : Char} {ps : List Char} (hp : pfx = p :: ps)
    (h : checkFam pfx minD maxD tok = true) :
    ∃ c rest, tok = c :: rest ∧ toLowerCh c = p := by
  rcases checkFam_parts h with ⟨m, rest, htok, hmap, _⟩
  cases m with
  | nil =>
    rw [hp] at hmap
    cases hmap
  | cons c m' =>
    rw [hp, List.map_cons] at hmap
    exact ⟨c, m' ++ rest, by rw [htok, List.cons_append],
      (List.cons.injEq .. ▸ hmap).1⟩

theorem matchFamilyAt_of_shaped {tok post : List Char}
    (htok : familyShapedB tok = true) (hpost : headNonWord post = true) :
    matchFamilyAt (tok ++ post) = some (tok, post) := by
  unfold familyShapedB at htok
  rcases Bool.or_eq_true_iff.mp htok with h3 | hhs
  rotate_left
  · -- hs
    rcases checkFam_head rfl hhs with ⟨c, rest, rfl, hlow⟩
    have hhead : ∀ d, ((c :: rest) ++ post).head? = some d → toLowerCh d ≠ 'j' := by
      intro d hd
      rcases Option.some.inj hd with rfl
      rw [hlow]; decide
    have hhead2 : ∀ d, ((c :: rest) ++ post).head? = some d → toLowerCh d ≠ 'r' := by
      intro d hd
      rcases Option.some.inj hd with rfl
      rw [hlow]; decide
    have hhead3 : ∀ d, ((c :: rest) ++ post).head? = some d → toLowerCh d ≠ 's' := by
      intro d hd
      rcases Option.some.inj hd with rfl
      rw [hlow]; decide
    simp only [matchFamilyAt, famTable, List.findSome?,
      matchFamOne_none_of_head hhead, matchFamOne_none_of_head hhead2,
      matchFamOne_none_of_head hhead3, matchFamOne_of_checkFam hhs hpost]
  rcases Bool.or_eq_true_iff.mp h3 with h2 | hsos
  rotate_left
  · -- sos
    rcases checkFam_head rfl hsos with ⟨c, rest, rfl, hlow⟩
    have hhead : ∀ d, ((c :: rest) ++ post).head? = some d → toLowerCh d ≠ 'j' := by
      intro d hd
      rcases Option.some.inj hd with rfl
      rw [hlow]; decide
    have hhead2 : ∀ d, ((c :: rest) ++ post).head? = some d → toLowerCh d ≠ 'r' := by
      intro d hd
      rcases Option.some.inj hd with rfl
      rw [hlow]; decide
    simp only [matchFamilyAt, famTable, List.findSome?,
      matchFamOne_none_of_head hhead, matchFamOne_none_of_head hhead2,
      matchFamOne_of_checkFam hsos hpost]
  rcases Bool.or_eq_true_iff.mp h2 with hjb | hrs
  · -- jb
    simp only [matchFamilyAt, famTable, List.findSome?,
      matchFamOne_of_checkFam hjb hpost]
  · -- rs
    rcases checkFam_head rfl hrs with ⟨c, rest, rfl, hlow⟩
    have hhead : ∀ d, ((c :: rest) ++ post).head? = some d → toLowerCh d ≠ 'j' := by
      intro d hd
      rcases Option.some.inj hd with rfl
      rw [hlow]; decide
    simp only [matchFamilyAt, famTable, List.findSome?,
      matchFamOne_none_of_head hhead, matchFamOne_of_checkFam hrs hpost]

theorem exists_getLast?_cons (a : Char) (l : List Char) :
    ∃ c, (a :: l).getLast? = some c := by
  induction l generalizing a with
  | nil => exact ⟨a, rfl⟩
  | cons b l' ih =>
    rcases ih b with ⟨c, hc⟩
    exact ⟨c, by rw [List.getLast?_cons_cons, hc]⟩

/-- Completeness of the pattern-3 scan: a family-shaped token delimited by
word boundaries is always found, wherever it sits in the text.  The scan
cannot jump over it: any earlier match consists of word characters and
ends before a non-word character, while the character just before the
token is non-word, so no match can straddle the token's start. -/
theorem scanFamFuel_complete :
    ∀ (n : Nat) (prevW : Bool) (pre tok post : List Char),
      (pre ++ (tok ++ post)).length ≤ n →
      (pre = [] → prevW = false) →
      (∀ c, pre.getLast? = some c → isWordCh c = false) →
      familyShapedB tok = true →
      headNonWord post = true →
      lowerStr tok ∈ scanFamFuel n prevW (pre ++ (tok ++ post)) := by
  intro n
  induction n with
  | zero =>
    intro prevW pre tok post hlen hpw hpre htok hpost
    have hnil : pre ++ (tok ++ post) = [] :=
      List.length_eq_zero.mp (Nat.le_zero.mp hlen)
    rcases List.append_eq_nil.mp hnil with ⟨_, h23⟩
    rcases List.append_eq_nil.mp h23 with ⟨h2, _⟩
    subst h2
    exact absurd htok (by decide)
  | succ n ih =>
    intro prevW pre tok post hlen hpw hpre htok hpost
    cases pre with
    | nil =>
      have hpw' := hpw rfl
      subst hpw'
      have hmatch : matchFamilyAt (tok ++ post) = some (tok, post) :=
        matchFamilyAt_of_shaped htok hpost
      have hne : tok ≠ [] := (matchFamilyAt_spec hmatch).2.1
      cases tok with
      | nil => exact absurd rfl hne
      | cons t0 ttail =>
        rw [List.cons_append] at hmatch
        rw [List.nil_append, List.cons_append]
        simp only [scanFamFuel, Bool.false_eq_true, if_false, hmatch]
        exact List.mem_cons_self _ _
    | cons p pre' =>
      rw [List.cons_append]
      -- advancing by one character preserves every hypothesis
      have hadv : lowerStr tok ∈ scanFamFuel n (isWordCh p) (pre' ++ (tok ++ post)) := by
        refine ih (isWordCh p) pre' tok post ?_ ?_ ?_ htok hpost
        · have := hlen
          simp only [List.cons_append, List.length_cons] at this
          omega
        · intro hnil
          subst hnil
          exact hpre p rfl
        · intro c hc
          apply hpre c
          cases pre' with
          | nil => cases hc
          | cons q pre'' => rw [List.getLast?_cons_cons, hc]
      cases prevW with
      | true =>
        simp only [scanFamFuel, if_true]
        exact hadv
      | false =>
        cases hm : matchFamilyAt (p :: (pre' ++ (tok ++ post))) with
        | none =>
          simp only [scanFamFuel, Bool.false_eq_true, if_false, hm]
          exact hadv
        | some gr =>
          obtain ⟨g, r⟩ := gr
          rcases matchFamilyAt_spec hm with ⟨hsplit, hgne, hgword, _⟩
          have hsplit' : (p :: pre') ++ (tok ++ post) = g ++ r := by
            rw [List.cons_append]; exact hsplit
          -- the match ends inside `pre`:
          have hglt : g.length < (p :: pre').length := by
            by_contra hge
            push_neg at hge
            have hpg : (p :: pre') <+: g :=
              List.prefix_of_prefix_length_le (List.prefix_append _ _)
                (hsplit' ▸ List.prefix_append g r) hge
            rcases exists_getLast?_cons p pre' with ⟨c, hc⟩
            have hcw : isWordCh c = false := hpre c hc
            rcases List.mem_getLast?_eq_getLast (Option.mem_def.mpr hc) with ⟨hne', rfl⟩
            have : isWordCh ((p :: pre').getLast hne') = true :=
              hgword _ (hpg.subset (List.getLast_mem hne'))
            rw [this] at hcw
            cases hcw
          have hgle : g.length ≤ (p :: pre').length := Nat.le_of_lt hglt
          -- peel the consumed part off `pre`
          have hr : r = (p :: pre').drop g.length ++ (tok ++ post) := by
            have h1 : r = ((p :: pre') ++ (tok ++ post)).drop g.length := by
              rw [hsplit', List.drop_left _ _]
            rw [h1, List.drop_append_eq_append_drop,
              Nat.sub_eq_zero_of_le hgle, List.drop_zero]
          have hdne : (p :: pre').drop g.length ≠ [] := by
            rw [← List.length_pos, List.length_drop]
            omega
          have hglen1 : 1 ≤ g.length := by
            rcases g with _ | ⟨x, g'⟩
            · exact absurd rfl hgne
            · simp
          simp only [scanFamFuel, Bool.false_eq_true, if_false, hm]
          refine List.mem_cons_of_mem _ ?_
          rw [hr]
          refine ih true ((p :: pre').drop g.length) tok post ?_ ?_ ?_ htok hpost
          · have hlenr : ((p :: pre') ++ (tok ++ post)).length = g.length + r.length := by
              rw [hsplit', List.length_append]
            have hlen' : ((p :: pre') ++ (tok ++ post)).length ≤ n + 1 := by
              rw [List.cons_append]; exact hlen
            have : r.length ≤ n := by omega
            rw [← hr]; exact this
          · intro h0
            exact absurd h0 hdne
          · intro c hc
            apply hpre c
            rw [← List.take_append_drop g.length (p :: pre'),
              List.getLast?_append_of_ne_nil _ hdne]
            exact hc

/-- **C4 (amended): bare family tokens are cited.**  Every token of one of
the fixed code families (`JB` + 2-3 digits, `RS`/`SOS`/`HS` + 2-4 digits,
up to four trailing letters) that appears bare in the response text,
delimited by word boundaries, is added lowercased to the cited-code set.
(Bold-marked codes are extracted by the two bold patterns; the
counterexample shows that bare tokens outside these families are NOT
extracted, which is where the original claim fails.) -/
theorem C4_bare_family_codes_cited (pre tok post : List Char)
    (hpre : ∀ c, pre.getLast? = some c → isWordCh c = false)
    (htok : familyShapedB tok = true)
    (hpost : headNonWord post = true) :
    lowerStr tok ∈ citedCodes (pre ++ (tok ++ post)) := by
  have h3 : lowerStr tok ∈
      scanFamFuel (pre ++ (tok ++ post)).length false (pre ++ (tok ++ post)) := by
    refine scanFamFuel_complete _ false pre tok post le_rfl (fun _ => rfl) hpre htok hpost
  unfold citedCodes
  exact List.mem_append.mpr (Or.inr h3)

/-- **C4, witness.**  `JB02HR` appears bare mid-sentence and lands in the
cited-code set, lowercased. -/
theorem C4_witness :
    (∀ c, "See ".data.getLast? = some c → isWordCh c = false) ∧
    familyShapedB "JB02HR".data = true ∧
    headNonWord " now".data = true ∧
    lowerStr "JB02HR".data ∈ citedCodes ("See ".data ++ ("JB02HR".data ++ " now".data)) :=
  ⟨by decide, by decide, by decide,
    C4_bare_family_codes_cited "See ".data "JB02HR".data " now".data
      (by decide) (by decide) (by decide)⟩

/-! ## HTTP surface: missing-query handling (geminiService.ts lines
697-741 for `POST /api/chat/stream`, 1335-1345 for `POST /api/search`)

Each handler is modelled as the sequence of observable response actions up
to the missing-query check; the remainder of the stream pipeline is the
opaque marker `proceed`.  Timer/heartbeat registrations are not response
actions and are omitted. -/

inductive SSEEvent where
  | status (msg : List Char)
  | chunk (text : List Char)
  | doneEv
  | errorEv (msg : List Char)
deriving DecidableEq, Repr

inductive StreamAction where
  /-- Action `res.setHeader(name, value)` (committed with the first write). -/
  | setHeader (name value : List Char)
  /-- Action `res.write('data: ' + JSON.stringify(event) + '\n\n')`. -/
  | writeEvent (e : SSEEvent)
  /-- Action `res.status(code).json(body)` — a plain HTTP response. -/
  | httpStatus (code : Nat) (body : List Char)
  /-- Action `res.end()`. -/
  | endStream
  /-- continue into the search/completion pipeline (not modelled here). -/
  | proceed
deriving DecidableEq, Repr

/-- Endpoint `POST /api/chat/stream` up to the `if (!query)` guard: SSE headers are
set and an initial status event written before the body is inspected; a
missing (or empty, `!query`) query is then answered with an SSE `error`
event and `res.end()` — not an HTTP 400, which is no longer possible once
the headers are out. -/
def chatStreamHandler (query : Option (List Char)) : List StreamAction :=
  [.setHeader "Content-Type".data "text/event-stream".data,
   .setHeader "Cache-Control".data "no-cache".data,
   .setHeader "Connection".data "keep-alive".data,
   .writeEvent (.status "Analyzing query...".data)] ++
  (match query with
    | none => [.writeEvent (.errorEv "Query is required".data), .endStream]
    | some q =>
      if q = [] then [.writeEvent (.errorEv "Query is required".data), .endStream]
      else [.proceed])

/-- The response of `POST /api/search`. -/
inductive SearchResponse where
  | badRequest (body : List Char)
  | ok (results : List SR)
deriving DecidableEq, Repr

/-- Endpoint `POST /api/search`: `if (!query) return res.status(400).json(...)`,
otherwise run the hybrid search (outcomes of the store calls passed in). -/
def searchHandler (query : Option (List Char))
    (keywordOutcomes : List (Except (List Char) (List DBRow)))
    (fuzzyOutcome : Option (Except (List Char) (List DBRow)))
    (vectorOutcome : Except (List Char) (List VRow))
    (matchCount : Nat) : SearchResponse :=
  match query with
  | none => .badRequest "Query is required".data
  | some q =>
    if q = [] then .badRequest "Query is required".data
    else .ok (searchProducts keywordOutcomes fuzzyOutcome vectorOutcome matchCount)

/-- An action that commits the response as a stream (headers or a body
write). -/
def isStreamCommit : StreamAction → Bool
  | .setHeader _ _ => true
  | .writeEvent _ => true
  | _ => false

def is400 : StreamAction → Bool
  | .httpStatus code _ => code == 400
  | _ => false

/-- The claim's reading for a streaming endpoint: some 400-equivalent
response appears in the trace before anything that commits streaming
headers. -/
def rejects400BeforeHeaders (trace : List StreamAction) : Prop :=
  ∃ pre a post, trace = pre ++ a :: post ∧ is400 a = true ∧
    (∀ x ∈ pre, isStreamCommit x = false)

/-- **C8, counterexample.**  For a `POST /api/chat/stream` request with no
`query` field, the handler never produces a 400-equivalent at all — the
event-stream headers are committed first and the rejection is an SSE error
event — so the claim fails for this endpoint. -/
theorem C8_counterexample : ¬ rejects400BeforeHeaders (chatStreamHandler none) := by
  rintro ⟨pre, a, post, heq, h400, _⟩
  have ha : a ∈ chatStreamHandler none := by
    rw [heq]
    exact List.mem_append.mpr (Or.inr (List.mem_cons_self _ _))
  fin_cases ha <;> simp [is400] at h400

/-- **C8 (amended).**  `POST /api/search` rejects a missing (or empty)
`query` with an HTTP 400 before any response is written; `POST
/api/chat/stream` commits the SSE headers and an initial status event
first, and rejects a missing `query` with an SSE `error` event followed by
end-of-stream instead of a 400. -/
theorem C8_missing_query_rejection :
    (∀ keywordOutcomes fuzzyOutcome vectorOutcome matchCount,
      searchHandler none keywordOutcomes fuzzyOutcome vectorOutcome matchCount =
          .badRequest "Query is required".data ∧
        searchHandler (some []) keywordOutcomes fuzzyOutcome vectorOutcome matchCount =
          .badRequest "Query is required".data) ∧
    chatStreamHandler none =
      [.setHeader "Content-Type".data "text/event-stream".data,
       .setHeader "Cache-Control".data "no-cache".data,
       .setHeader "Connection".data "keep-alive".data,
       .writeEvent (.status "Analyzing query...".data),
       .writeEvent (.errorEv "Query is required".data), .endStream] :=
  ⟨fun _ _ _ _ => ⟨rfl, rfl⟩, rfl⟩

end JoBird
